import Mathlib

/-!
Shallow embedding of `src/social_graph.py` (COVID-19 contact visualizer):
the `_Person` / `Graph` data model, its mutation and query operations, and
the recursive multi-source degrees-apart propagation, together with proofs
of the specified properties.

Python dicts are modelled as association lists in insertion order
(`List (String × _)`); dict indexing that can raise `KeyError` is modelled
with `Option`.  The heap of mutable `_Person.degrees_apart` slots during
propagation is modelled as an explicit state function `String → Option Nat`.
Float contact levels are modelled as rationals (they are only stored and
compared, never computed with).
-/

/-- Association-list lookup, mirroring Python dict indexing by key. -/
def lookupId {α : Type} (id : String) : List (String × α) → Option α
  | [] => none
  | q :: rest => if q.1 = id then some q.2 else lookupId id rest

/-- `_Person`: a vertex of the contact graph (`src/social_graph.py` lines 18-55).
`neighbours` is keyed by identifier (Python keys it by the unique `_Person`
object owned by the graph under that identifier). -/
structure Person where
  identifier : String
  name : String
  age : Int
  severity_level : ℚ
  infected : Bool
  neighbours : List (String × ℚ)
  degrees_apart : Option Nat
deriving DecidableEq, Repr

/-- `_Person.__init__` plus the class-level default `degrees_apart = None`. -/
def Person.init (identifier name : String) (age : Int) (severity_level : ℚ) : Person :=
  ⟨identifier, name, age, severity_level, false, [], none⟩

/-- `_Person.get_degree`: return the cached value, `ValueError` (`none`) if unset. -/
def Person.get_degree (p : Person) : Option Nat :=
  match p.degrees_apart with
  | some d => some d
  | none => none

/-- `_Person.reset_degree`: set the cache to `0` if `zero`, else unset it. -/
def Person.reset_degree (p : Person) (zero : Bool) : Person :=
  if zero then { p with degrees_apart := some 0 } else { p with degrees_apart := none }

/-- `_Person.change_infection_status`. -/
def Person.change_infection_status (p : Person) : Person :=
  { p with infected := !p.infected }

/-- The state of all `degrees_apart` slots during propagation. -/
abbrev DegMap := String → Option Nat

/-- The update statement of `_Person.calculate_degrees_apart` (lines 80-81):
overwrite the cache with `curr_degree` when it is unset or larger. -/
def updMin (curr_degree : Nat) : Option Nat → Option Nat
  | none => some curr_degree
  | some d => some (if curr_degree < d then curr_degree else d)

/-- `_Person.calculate_degrees_apart` (lines 70-86), fuel-indexed: the Python
recursion always terminates because the visited set grows strictly along each
call chain, so any fuel exceeding the number of vertices is enough (proved
below).  `adj` maps an identifier to the identifier keys of that person's
`neighbours` dict in order; `st` is the heap of `degrees_apart` slots. -/
def calculate_degrees_apart (adj : String → List String) :
    Nat → String → Nat → List String → Bool → DegMap → DegMap
  | 0, _, _, _, _, st => st
  | fuel + 1, v, curr_degree, visited, init_call, st =>
    if init_call = false ∧ curr_degree = 0 then st
    else
      (adj v).foldl
        (fun acc w =>
          if w ∈ v :: visited then acc
          else calculate_degrees_apart adj fuel w (curr_degree + 1) (v :: visited) false acc)
        (fun u => if u = v then updMin curr_degree (st v) else st u)

/-- `Graph` (lines 106-118): owns the people keyed by identifier. -/
structure Graph where
  people : List (String × Person)
deriving DecidableEq, Repr

/-- `Graph.__init__`. -/
def Graph.empty : Graph := ⟨[]⟩

/-- `Graph.get_neighbours` (identifier keys of the person's neighbours). -/
def Graph.get_neighbours (g : Graph) (item : String) : Option (List String) :=
  (lookupId item g.people).map (fun p => p.neighbours.map (·.1))

/-- `Graph.get_weight` (lines 129-139): both identifier lookups can raise
`KeyError`, then the neighbours lookup raises if the pair is not adjacent. -/
def Graph.get_weight (g : Graph) (person1 person2 : String) : Option ℚ :=
  match lookupId person1 g.people, lookupId person2 g.people with
  | some p1, some _ => lookupId person2 p1.neighbours
  | _, _ => none

/-- `Graph.get_contact_level` (lines 151-159): `neighbours.get(person2, 0)`. -/
def Graph.get_contact_level (g : Graph) (identifier1 identifier2 : String) : Option ℚ :=
  match lookupId identifier1 g.people, lookupId identifier2 g.people with
  | some p1, some _ => some ((lookupId identifier2 p1.neighbours).getD 0)
  | _, _ => none

/-- `Graph.add_vertex` (lines 163-167): insert only when the identifier is new;
Python dict insertion appends in insertion order. -/
def Graph.add_vertex (g : Graph) (identifier name : String) (age : Int)
    (severity_level : ℚ) : Graph :=
  match lookupId identifier g.people with
  | some _ => g
  | none => ⟨g.people ++ [(identifier, Person.init identifier name age severity_level)]⟩

/-- Python dict store `ns[b] = w`: overwrite in place if the key is present
(keeping its position), else append. -/
def setWeight (ns : List (String × ℚ)) (b : String) (w : ℚ) : List (String × ℚ) :=
  match lookupId b ns with
  | some _ => ns.map (fun q => (q.1, if q.1 = b then w else q.2))
  | none => ns ++ [(b, w)]

/-- `personA.neighbours[personB] = w` lifted to the graph state. -/
def updateNb (g : Graph) (a b : String) (w : ℚ) : Graph :=
  ⟨g.people.map (fun pr =>
    (pr.1, if pr.1 = a then { pr.2 with neighbours := setWeight pr.2.neighbours b w }
           else pr.2))⟩

/-- `Graph.add_edge` (lines 169-180): both dict lookups can raise `KeyError`
(`none`); then the two symmetric neighbour stores are performed in order. -/
def Graph.add_edge (g : Graph) (identifier1 identifier2 : String)
    (contact_level : ℚ) : Option Graph :=
  match lookupId identifier1 g.people, lookupId identifier2 g.people with
  | some _, some _ =>
      some (updateNb (updateNb g identifier1 identifier2 contact_level)
              identifier2 identifier1 contact_level)
  | _, _ => none

/-- `Graph.set_infected` (lines 182-193): for each given identifier, the dict
lookup can raise `KeyError`, else `infected = True` is set on that person. -/
def Graph.set_infected (g : Graph) : List String → Option Graph
  | [] => some g
  | id :: rest =>
    match lookupId id g.people with
    | some _ =>
        Graph.set_infected
          ⟨g.people.map (fun pr =>
            (pr.1, if pr.1 = id then { pr.2 with infected := true } else pr.2))⟩
          rest
    | none => none

/-- `Graph._reset_degrees` (lines 211-215). -/
def Graph.reset_degrees (g : Graph) : Graph :=
  ⟨g.people.map (fun pr => (pr.1, pr.2.reset_degree false))⟩

/-- The first loop of `Graph.recalculate_degrees`: seed every infected person
with degree `0`. -/
def Graph.seed_infected (g : Graph) : Graph :=
  ⟨g.people.map (fun pr =>
    (pr.1, if pr.2.infected then pr.2.reset_degree true else pr.2))⟩

/-- Adjacency read off the graph: the identifier keys of a person's
`neighbours` dict. -/
def Graph.adjOf (g : Graph) (id : String) : List String :=
  match lookupId id g.people with
  | some p => p.neighbours.map (·.1)
  | none => []

/-- The infected seeds collected by `Graph.recalculate_degrees`, in graph
order. -/
def Graph.seedsOf (g : Graph) : List String :=
  ((g.reset_degrees.seed_infected).people.filter (fun pr => pr.2.infected)).map (·.1)

/-- The `degrees_apart` heap just after resetting and seeding. -/
def Graph.seedState (g : Graph) : DegMap :=
  fun id => (lookupId id (g.reset_degrees.seed_infected).people).bind Person.degrees_apart

/-- The `degrees_apart` heap after every infected seed has propagated
(`infected_person.calculate_degrees_apart(0, set())` for each seed). -/
def Graph.finalState (g : Graph) : DegMap :=
  (g.seedsOf).foldl
    (fun st s => calculate_degrees_apart g.adjOf (g.people.length + 1) s 0 [] true st)
    g.seedState

/-- `Graph.recalculate_degrees` (lines 195-209): reset all degrees, seed the
infected at `0`, propagate from every seed, and the persons' `degrees_apart`
slots hold the final heap. -/
def Graph.recalculate_degrees (g : Graph) : Graph :=
  ⟨(g.reset_degrees.seed_infected).people.map
    (fun pr => (pr.1, { pr.2 with degrees_apart := g.finalState pr.1 }))⟩

/-- Graphs reachable from the empty graph by `add_vertex` / `add_edge` calls
(failed `add_edge` calls leave the graph unchanged, so they need no case). -/
inductive Built : Graph → Prop
  | empty : Built Graph.empty
  | add_vertex (g : Graph) (id n : String) (a : Int) (s : ℚ) :
      Built g → Built (g.add_vertex id n a s)
  | add_edge (g g' : Graph) (id1 id2 : String) (w : ℚ) :
      Built g → g.add_edge id1 id2 w = some g' → Built g'

/-- Weight stored on `u`'s side for neighbour `v` (observation used to state
the symmetry invariant). -/
def nbrWeight (g : Graph) (u v : String) : Option ℚ :=
  (lookupId u g.people).bind (fun p => lookupId v p.neighbours)

/-- Walks in the adjacency structure, measured in edges. -/
inductive Walk (adj : String → List String) : String → String → Nat → Prop
  | nil (v : String) : Walk adj v v 0
  | cons {a b u : String} {k : Nat} :
      b ∈ adj a → Walk adj b u k → Walk adj a u (k + 1)

/-- Update events generated by one `calculate_degrees_apart` call:
`Ev adj v c visited u d` holds when the call at `v` with current degree `c`
and ancestor set `visited` eventually writes candidate value `d` at vertex
`u`; equivalently, `d = c + k` for a `visited`-avoiding simple path of `k`
edges from `v` to `u`. -/
inductive Ev (adj : String → List String) :
    String → Nat → List String → String → Nat → Prop
  | here (v : String) (c : Nat) (visited : List String) : Ev adj v c visited v c
  | step {v : String} {c : Nat} {visited : List String} {w u : String} {d : Nat} :
      w ∈ adj v → w ∉ v :: visited → Ev adj w (c + 1) (v :: visited) u d →
      Ev adj v c visited u d

/-- Order on optional degrees with `none` as plus-infinity. -/
def ole (a b : Option Nat) : Prop := ∀ y, b = some y → ∃ x, a = some x ∧ x ≤ y

/-- `res` is the pointwise minimum of the initial heap `st` and the candidate
values described by `E`. -/
def MinSpec (st res : DegMap) (E : String → Nat → Prop) : Prop :=
  ∀ u, ole (res u) (st u) ∧ (∀ d, E u d → ole (res u) (some d)) ∧
    (res u = st u ∨ ∃ d, E u d ∧ res u = some d)

/-- Invariants holding for every graph built by `add_vertex` / `add_edge`
calls: the neighbour relation is symmetric with equal weights on both sides,
every neighbour key names a present vertex, and nobody is infected. -/
def BuiltInv (g : Graph) : Prop :=
  (∀ u v x, nbrWeight g u v = some x ↔ nbrWeight g v u = some x) ∧
  (∀ u v, (nbrWeight g u v).isSome → (lookupId v g.people).isSome) ∧
  (∀ v p, lookupId v g.people = some p → p.infected = false) ∧
  (g.people.map (·.1)).Nodup

/-- Entry (key and value) found by a lookup. -/
def findEntry {α : Type} (id : String) : List (String × α) → Option (String × α)
  | [] => none
  | q :: rest => if q.1 = id then some q else findEntry id rest

/-- Test fixture: one person `A`. -/
def exG1 : Graph := Graph.empty.add_vertex "A" "Ann" 30 1

/-- Test fixture: two people `A`, `B`, no edges. -/
def exG2 : Graph := (Graph.empty.add_vertex "A" "Ann" 30 1).add_vertex "B" "Bob" 60 0

/-- Test fixture: `A`, `B` joined by an edge of contact level `1`. -/
def exG2E : Graph := (exG2.add_edge "A" "B" 1).getD Graph.empty

/-- Test fixture: the path `A - B - C`. -/
def exPath : Graph :=
  let g0 := ((Graph.empty.add_vertex "A" "Ann" 30 1).add_vertex "B" "Bob" 60 0).add_vertex
    "C" "Cam" 20 1
  (((g0.add_edge "A" "B" 1).getD Graph.empty).add_edge "B" "C" 1).getD Graph.empty

/-! ### Association-list lemmas -/

theorem lookupId_eq_findEntry {α : Type} (id : String) (l : List (String × α)) :
    lookupId id l = (findEntry id l).map (·.2) := by
  induction l with
  | nil => rfl
  | cons q rest ih =>
      by_cases h : q.1 = id <;> simp [lookupId, findEntry, h, ih]

theorem findEntry_key {α : Type} {id : String} {l : List (String × α)}
    {pr : String × α} (h : findEntry id l = some pr) : pr.1 = id := by
  induction l with
  | nil => simp [findEntry] at h
  | cons q rest ih =>
      by_cases hq : q.1 = id
      · simp [findEntry, hq] at h; exact h ▸ hq
      · simp [findEntry, hq] at h; exact ih h

theorem findEntry_mem {α : Type} {id : String} {l : List (String × α)}
    {pr : String × α} (h : findEntry id l = some pr) : pr ∈ l := by
  induction l with
  | nil => simp [findEntry] at h
  | cons q rest ih =>
      by_cases hq : q.1 = id
      · simp [findEntry, hq] at h; simp [← h]
      · simp [findEntry, hq] at h; exact List.mem_cons_of_mem _ (ih h)

theorem findEntry_mapEntry {α β : Type} (f : String × α → β) (id : String)
    (l : List (String × α)) :
    findEntry id (l.map (fun pr => (pr.1, f pr))) =
      (findEntry id l).map (fun pr => (pr.1, f pr)) := by
  induction l with
  | nil => rfl
  | cons q rest ih =>
      by_cases h : q.1 = id <;> simp [findEntry, h, ih]

theorem lookupId_mapEntry {α β : Type} (f : String × α → β) (id : String)
    (l : List (String × α)) :
    lookupId id (l.map (fun pr => (pr.1, f pr))) = (findEntry id l).map f := by
  rw [lookupId_eq_findEntry, findEntry_mapEntry]
  cases findEntry id l <;> rfl

theorem lookupId_append {α : Type} (id : String) (l1 l2 : List (String × α)) :
    lookupId id (l1 ++ l2) =
      match lookupId id l1 with
      | some x => some x
      | none => lookupId id l2 := by
  induction l1 with
  | nil => rfl
  | cons q rest ih =>
      by_cases h : q.1 = id <;> simp [lookupId, h, ih]

theorem mem_keys_iff_lookupId {α : Type} (id : String) (l : List (String × α)) :
    id ∈ l.map (·.1) ↔ (lookupId id l).isSome := by
  induction l with
  | nil => simp [lookupId]
  | cons q rest ih =>
      by_cases h : q.1 = id
      · simp [lookupId, h]
      · simp [lookupId, h, ih, Ne.symm h]

theorem lookupId_mapEntry' {α β : Type} (f : String × α → β) (v : String)
    (l : List (String × α)) :
    lookupId v (l.map (fun pr => (pr.1, f pr))) = (lookupId v l).map (fun x => f (v, x)) := by
  rw [lookupId_mapEntry, lookupId_eq_findEntry]
  cases hf : findEntry v l with
  | none => rfl
  | some pr =>
      have hk := findEntry_key hf
      show some (f pr) = some (f (v, pr.2))
      rw [← hk]

theorem lookupId_setWeight (ns : List (String × ℚ)) (b : String) (w : ℚ) (v : String) :
    lookupId v (setWeight ns b w) = if v = b then some w else lookupId v ns := by
  unfold setWeight
  cases hb : lookupId b ns with
  | none =>
      rw [lookupId_append]
      by_cases hv : v = b
      · subst hv; rw [hb]; simp [lookupId]
      · cases hx : lookupId v ns with
        | some q => simp [hx, hv]
        | none => simp [hx, hv, lookupId, Ne.symm hv]
  | some x =>
      rw [lookupId_mapEntry']
      by_cases hv : v = b
      · subst hv; rw [hb]; simp
      · cases hx : lookupId v ns <;> simp [hv]

theorem lookupId_updateNb (g : Graph) (a b : String) (w : ℚ) (v : String) :
    lookupId v (updateNb g a b w).people =
      (lookupId v g.people).map
        (fun p => if v = a then { p with neighbours := setWeight p.neighbours b w } else p) :=
  lookupId_mapEntry' _ v g.people

theorem lookupId_reset_degrees (g : Graph) (v : String) :
    lookupId v g.reset_degrees.people =
      (lookupId v g.people).map (fun p => p.reset_degree false) :=
  lookupId_mapEntry' _ v g.people

theorem lookupId_seed_infected (g : Graph) (v : String) :
    lookupId v g.seed_infected.people =
      (lookupId v g.people).map (fun p => if p.infected then p.reset_degree true else p) :=
  lookupId_mapEntry' _ v g.people

theorem lookupId_recalculate (g : Graph) (v : String) :
    lookupId v g.recalculate_degrees.people =
      (lookupId v (g.reset_degrees.seed_infected).people).map
        (fun p => { p with degrees_apart := g.finalState v }) :=
  lookupId_mapEntry' _ v (g.reset_degrees.seed_infected).people

theorem lookupId_add_vertex (g : Graph) (id n : String) (a : Int) (s : ℚ) (v : String) :
    lookupId v (g.add_vertex id n a s).people =
      match lookupId id g.people, lookupId v g.people with
      | some _, o => o
      | none, some p => some p
      | none, none => if v = id then some (Person.init id n a s) else none := by
  unfold Graph.add_vertex
  cases h1 : lookupId id g.people with
  | some p => rfl
  | none =>
      show lookupId v (g.people ++ [(id, Person.init id n a s)]) = _
      rw [lookupId_append]
      cases h2 : lookupId v g.people with
      | some p => rfl
      | none =>
          by_cases hv : v = id
          · simp [lookupId, hv]
          · simp [lookupId, hv, Ne.symm hv]

theorem set_infected_lookup :
    ∀ (S : List String) (g g' : Graph), g.set_infected S = some g' →
      ∀ v, lookupId v g'.people =
        (lookupId v g.people).map (fun p => if v ∈ S then { p with infected := true } else p) := by
  intro S
  induction S with
  | nil =>
      intro g g' h v
      simp [Graph.set_infected] at h
      subst h
      cases lookupId v g.people <;> simp
  | cons id rest ih =>
      intro g g' h v
      unfold Graph.set_infected at h
      cases h1 : lookupId id g.people with
      | none => rw [h1] at h; exact absurd h (by simp)
      | some p =>
          rw [h1] at h
          have := ih _ _ h v
          rw [this, lookupId_mapEntry']
          cases hx : lookupId v g.people with
          | none => rfl
          | some q =>
              by_cases hvid : v = id
              · by_cases hvr : v ∈ rest <;> simp [hvid, hvr]
              · have : v ∈ id :: rest ↔ v ∈ rest := by simp [hvid]
                by_cases hvr : v ∈ rest <;> simp [hvid, hvr]

theorem set_infected_present :
    ∀ (S : List String) (g g' : Graph), g.set_infected S = some g' →
      ∀ s ∈ S, (lookupId s g.people).isSome := by
  intro S
  induction S with
  | nil => intro g g' _ s hs; simp at hs
  | cons id rest ih =>
      intro g g' h s hs
      unfold Graph.set_infected at h
      cases h1 : lookupId id g.people with
      | none => rw [h1] at h; exact absurd h (by simp)
      | some p =>
          rw [h1] at h
          rcases List.mem_cons.mp hs with hs | hs
          · subst hs; simp [h1]
          · have := ih _ _ h s hs
            rw [lookupId_mapEntry'] at this
            cases hx : lookupId s g.people with
            | none => rw [hx] at this; simp at this
            | some q => simp

/-! ### Operation characterizations -/

theorem add_vertex_present_noop (g : Graph) (id n : String) (a : Int) (s : ℚ)
    (h : (lookupId id g.people).isSome) : g.add_vertex id n a s = g := by
  obtain ⟨p, hp⟩ := Option.isSome_iff_exists.mp h
  unfold Graph.add_vertex
  rw [hp]

theorem add_edge_present {g : Graph} {id1 id2 : String} {w : ℚ} {g' : Graph}
    (h : g.add_edge id1 id2 w = some g') :
    (lookupId id1 g.people).isSome ∧ (lookupId id2 g.people).isSome := by
  unfold Graph.add_edge at h
  cases h1 : lookupId id1 g.people <;> cases h2 : lookupId id2 g.people <;>
    rw [h1, h2] at h <;> simp_all

theorem add_edge_absent (g : Graph) (id1 id2 : String) (w : ℚ)
    (h : lookupId id1 g.people = none ∨ lookupId id2 g.people = none) :
    g.add_edge id1 id2 w = none := by
  unfold Graph.add_edge
  rcases h with h | h
  · rw [h]
  · rw [h]
    cases hx : lookupId id1 g.people <;> rfl

theorem add_edge_lookup {g : Graph} {id1 id2 : String} {w : ℚ} {g' : Graph}
    (h : g.add_edge id1 id2 w = some g') (v : String) :
    lookupId v g'.people =
      (lookupId v g.people).map (fun p =>
        let p1 := if v = id1 then { p with neighbours := setWeight p.neighbours id2 w } else p
        if v = id2 then { p1 with neighbours := setWeight p1.neighbours id1 w } else p1) := by
  unfold Graph.add_edge at h
  cases h1 : lookupId id1 g.people <;> rw [h1] at h
  case none => simp at h
  cases h2 : lookupId id2 g.people <;> rw [h2] at h
  case none => simp at h
  have hg' : g' = updateNb (updateNb g id1 id2 w) id2 id1 w := by
    injection h.symm
  subst hg'
  rw [lookupId_updateNb, lookupId_updateNb, Option.map_map]
  rfl

theorem nbrWeight_updateNb (g : Graph) (a b : String) (w : ℚ) (u v : String) :
    nbrWeight (updateNb g a b w) u v =
      if u = a ∧ v = b then (lookupId u g.people).map (fun _ => w)
      else nbrWeight g u v := by
  unfold nbrWeight
  rw [lookupId_updateNb]
  cases hu : lookupId u g.people with
  | none => by_cases hc : u = a ∧ v = b <;> simp [hc]
  | some p =>
      show lookupId v (if u = a then
          { p with neighbours := setWeight p.neighbours b w } else p).neighbours = _
      by_cases hua : u = a
      · rw [if_pos hua]
        show lookupId v (setWeight p.neighbours b w) = _
        rw [lookupId_setWeight]
        by_cases hvb : v = b
        · rw [if_pos hvb, if_pos ⟨hua, hvb⟩]; rfl
        · rw [if_neg hvb, if_neg (fun hh : u = a ∧ v = b => hvb hh.2)]
          rfl
      · rw [if_neg hua, if_neg (fun hh : u = a ∧ v = b => hua hh.1)]
        rfl

theorem nbrWeight_add_edge {g : Graph} {id1 id2 : String} {w : ℚ} {g' : Graph}
    (h : g.add_edge id1 id2 w = some g') (u v : String) :
    nbrWeight g' u v =
      if (u = id1 ∧ v = id2) ∨ (u = id2 ∧ v = id1) then some w
      else nbrWeight g u v := by
  have hpres := add_edge_present h
  have hg' : g' = updateNb (updateNb g id1 id2 w) id2 id1 w := by
    unfold Graph.add_edge at h
    cases h1 : lookupId id1 g.people <;> rw [h1] at h
    case none => simp at h
    cases h2 : lookupId id2 g.people <;> rw [h2] at h
    case none => simp at h
    exact (Option.some_inj.mp h).symm
  subst hg'
  rw [nbrWeight_updateNb, nbrWeight_updateNb]
  by_cases h21 : u = id2 ∧ v = id1
  · rw [if_pos h21, if_pos (Or.inr h21)]
    obtain ⟨p2, hp2⟩ := Option.isSome_iff_exists.mp hpres.2
    have hp2u : lookupId u g.people = some p2 := by rw [h21.1]; exact hp2
    rw [lookupId_updateNb, hp2u]
    rfl
  · rw [if_neg h21]
    by_cases h12 : u = id1 ∧ v = id2
    · rw [if_pos h12, if_pos (Or.inl h12)]
      obtain ⟨p1, hp1⟩ := Option.isSome_iff_exists.mp hpres.1
      have hp1u : lookupId u g.people = some p1 := by rw [h12.1]; exact hp1
      rw [hp1u]
      rfl
    · rw [if_neg h12, if_neg (fun hh => hh.elim h12 h21)]

/-! ### Claims C2, C4, C5, C6, C8, C9, C10 -/

/-- C5: `getDegree` returns the cached `degreesApart` value when it is set, and
fails with `NotComputed` (modelled as `none`) exactly when the cache is unset. -/
theorem C5_get_degree_cache (p : Person) :
    (∀ d, p.degrees_apart = some d → p.get_degree = some d) ∧
    (p.get_degree = none ↔ p.degrees_apart = none) := by
  constructor
  · intro d h; simp [Person.get_degree, h]
  · cases h : p.degrees_apart <;> simp [Person.get_degree, h]

/-- Witness for C5 at a concrete person: a fresh person's degree read fails,
and after caching `2` it returns `2`. -/
theorem C5_get_degree_cache_witness :
    (Person.init "A" "Ann" 30 1).get_degree = none ∧
      ({ Person.init "A" "Ann" 30 1 with degrees_apart := some 2 } : Person).get_degree
        = some 2 :=
  ⟨(C5_get_degree_cache _).2.mpr rfl, (C5_get_degree_cache _).1 2 rfl⟩

/-- C8: a second `addVertex` with the same identifier is a no-op: the graph is
unchanged, the vertex count is unchanged, and a fresh identifier keeps the
attributes supplied by the first call. -/
theorem C8_add_vertex_idempotent (g : Graph) (id n : String) (a : Int) (s : ℚ)
    (n' : String) (a' : Int) (s' : ℚ) :
    (g.add_vertex id n a s).add_vertex id n' a' s' = g.add_vertex id n a s ∧
    ((g.add_vertex id n a s).add_vertex id n' a' s').people.length
        = (g.add_vertex id n a s).people.length ∧
    (lookupId id g.people = none →
      lookupId id ((g.add_vertex id n a s).add_vertex id n' a' s').people
        = some (Person.init id n a s)) := by
  have hpres : (lookupId id (g.add_vertex id n a s).people).isSome := by
    rw [lookupId_add_vertex]
    cases h1 : lookupId id g.people with
    | some p => simp
    | none => simp
  have heq := add_vertex_present_noop (g.add_vertex id n a s) id n' a' s' hpres
  refine ⟨heq, by rw [heq], ?_⟩
  intro hnone
  rw [heq, lookupId_add_vertex, hnone]
  simp

/-- Witness for C8: inserting `A` twice keeps the first call's attributes. -/
theorem C8_add_vertex_idempotent_witness :
    lookupId "A" ((Graph.empty.add_vertex "A" "Ann" 30 1).add_vertex "A" "Al" 7 0).people
      = some (Person.init "A" "Ann" 30 1) :=
  (C8_add_vertex_idempotent Graph.empty "A" "Ann" 30 1 "Al" 7 0).2.2 rfl

/-- C10: a vertex freshly inserted by `addVertex` starts uninfected, with no
neighbours and an unset degree cache, so `getDegree` on it fails. -/
theorem C10_fresh_vertex (g : Graph) (id n : String) (a : Int) (s : ℚ)
    (h : lookupId id g.people = none) :
    ∃ p, lookupId id (g.add_vertex id n a s).people = some p ∧
      p.infected = false ∧ p.neighbours = [] ∧ p.degrees_apart = none ∧
      p.get_degree = none := by
  refine ⟨Person.init id n a s, ?_, rfl, rfl, rfl, rfl⟩
  rw [lookupId_add_vertex, h]
  simp

/-- Witness for C10 at a concrete fresh insertion. -/
theorem C10_fresh_vertex_witness :
    ∃ p, lookupId "A" (Graph.empty.add_vertex "A" "Ann" 30 1).people = some p ∧
      p.infected = false ∧ p.neighbours = [] ∧ p.degrees_apart = none ∧
      p.get_degree = none :=
  C10_fresh_vertex Graph.empty "A" "Ann" 30 1 rfl

/-- C2 is false on the code: `addEdge("A","A",1)` on a graph containing `A`
is neither rejected nor a no-op; afterwards `A` is a member of its own
neighbours map with weight `1`. -/
theorem C2_self_loop_counterexample :
    (exG1.add_edge "A" "A" 1).map (fun g' => nbrWeight g' "A" "A") = some (some 1) := by
  decide

/-- C2 (amended): `addEdge(id, id, w)` on a present id succeeds and installs
the self-loop `id ∈ neighbours(id)` with weight `w`; the invariant
`self ∉ neighbours(self)` is preserved by every `addEdge` call with distinct
endpoints (the only calls allowed by the source's documented precondition
`identifier1 != identifier2`). -/
theorem C2_amended_self_loop (g : Graph) (id1 id2 : String) (w : ℚ) (g' : Graph)
    (h : g.add_edge id1 id2 w = some g') :
    (id1 ≠ id2 → ∀ v, nbrWeight g v v = none → nbrWeight g' v v = none) ∧
    (id1 = id2 → nbrWeight g' id1 id1 = some w) := by
  constructor
  · intro hne v hv
    rw [nbrWeight_add_edge h]
    have hc : ¬((v = id1 ∧ v = id2) ∨ (v = id2 ∧ v = id1)) := by
      rintro (⟨ha, hb⟩ | ⟨ha, hb⟩) <;> exact hne (by rw [← ha, ← hb])
    rw [if_neg hc]
    exact hv
  · intro he
    subst he
    rw [nbrWeight_add_edge h]
    simp

/-- Witness for the amended C2: a distinct-endpoint call preserves
self-loop-freeness at `A`; the degenerate call on `A` itself creates the
self-loop. -/
theorem C2_amended_self_loop_witness :
    (∃ g', exG2.add_edge "A" "B" 1 = some g' ∧ nbrWeight g' "A" "A" = none) ∧
    (∃ g', exG1.add_edge "A" "A" 1 = some g' ∧ nbrWeight g' "A" "A" = some 1) := by
  refine ⟨⟨_, rfl, ?_⟩, ⟨_, rfl, ?_⟩⟩
  · exact (C2_amended_self_loop exG2 "A" "B" 1 _ rfl).1 (by decide) "A" (by decide)
  · exact (C2_amended_self_loop exG1 "A" "A" 1 _ rfl).2 rfl

/-- C4: with distinct identifiers, `addEdge` fails iff an endpoint is missing;
when both endpoints are present it succeeds and mutates nothing except the two
endpoints' neighbours maps (all other vertices, and every non-neighbours field
of the endpoints, are unchanged). -/
theorem C4_add_edge_unknown_vertex (g : Graph) (id1 id2 : String) (w : ℚ)
    (hne : id1 ≠ id2) :
    ((lookupId id1 g.people = none ∨ lookupId id2 g.people = none) →
      g.add_edge id1 id2 w = none) ∧
    ((lookupId id1 g.people).isSome → (lookupId id2 g.people).isSome →
      ∃ g', g.add_edge id1 id2 w = some g' ∧
        (∀ v, v ≠ id1 → v ≠ id2 → lookupId v g'.people = lookupId v g.people) ∧
        (∀ v p', lookupId v g'.people = some p' → ∃ p, lookupId v g.people = some p ∧
          p'.identifier = p.identifier ∧ p'.name = p.name ∧ p'.age = p.age ∧
          p'.severity_level = p.severity_level ∧ p'.infected = p.infected ∧
          p'.degrees_apart = p.degrees_apart)) := by
  refine ⟨add_edge_absent g id1 id2 w, ?_⟩
  intro h1 h2
  obtain ⟨p1, hp1⟩ := Option.isSome_iff_exists.mp h1
  obtain ⟨p2, hp2⟩ := Option.isSome_iff_exists.mp h2
  have hsome : g.add_edge id1 id2 w
      = some (updateNb (updateNb g id1 id2 w) id2 id1 w) := by
    unfold Graph.add_edge
    rw [hp1, hp2]
  refine ⟨_, hsome, ?_, ?_⟩
  · intro v hv1 hv2
    rw [add_edge_lookup hsome v]
    cases hx : lookupId v g.people with
    | none => rfl
    | some p => simp [hv1, hv2]
  · intro v p' hp'
    rw [add_edge_lookup hsome v] at hp'
    cases hx : lookupId v g.people with
    | none => rw [hx] at hp'; simp at hp'
    | some p =>
        rw [hx] at hp'
        refine ⟨p, rfl, ?_⟩
        have hval := (Option.some_inj.mp hp').symm
        subst hval
        by_cases hv1 : v = id1 <;> by_cases hv2 : v = id2
        · exact absurd (hv1.symm.trans hv2) hne
        · simp [hv1, hv2, hne, Ne.symm hne]
        · simp [hv1, hv2, hne, Ne.symm hne]
        · simp [hv1, hv2]

/-- Witness for C4: on `{A, B}`, the edge to the unknown `Z` fails and the
edge `A - B` succeeds with the stated frame. -/
theorem C4_add_edge_unknown_vertex_witness :
    exG2.add_edge "A" "Z" 1 = none ∧
    (∃ g', exG2.add_edge "A" "B" 1 = some g' ∧
      (∀ v, v ≠ "A" → v ≠ "B" → lookupId v g'.people = lookupId v exG2.people) ∧
      (∀ v p', lookupId v g'.people = some p' → ∃ p, lookupId v exG2.people = some p ∧
        p'.identifier = p.identifier ∧ p'.name = p.name ∧ p'.age = p.age ∧
        p'.severity_level = p.severity_level ∧ p'.infected = p.infected ∧
        p'.degrees_apart = p.degrees_apart)) :=
  ⟨(C4_add_edge_unknown_vertex exG2 "A" "Z" 1 (by decide)).1 (Or.inr (by decide)),
   (C4_add_edge_unknown_vertex exG2 "A" "B" 1 (by decide)).2 (by decide) (by decide)⟩

/-- C6: for two present vertices with no edge between them, `getContactLevel`
returns `0` while `getWeight` fails with `NotAdjacent` (modelled as `none`);
when an edge exists both return its stored weight. -/
theorem C6_contact_level_total (g : Graph) (id1 id2 : String) (p1 p2 : Person)
    (h1 : lookupId id1 g.people = some p1) (h2 : lookupId id2 g.people = some p2) :
    (lookupId id2 p1.neighbours = none →
      g.get_contact_level id1 id2 = some 0 ∧ g.get_weight id1 id2 = none) ∧
    (∀ w, lookupId id2 p1.neighbours = some w →
      g.get_contact_level id1 id2 = some w ∧ g.get_weight id1 id2 = some w) := by
  unfold Graph.get_contact_level Graph.get_weight
  rw [h1, h2]
  constructor
  · intro hnone; simp [hnone]
  · intro w hw; simp [hw]

/-- Witness for C6: in `A - B` plus the isolated pair, `A`/`B` carry weight 1,
while `getContactLevel` on the non-adjacent pair of `exG2` is `0` and
`getWeight` fails. -/
theorem C6_contact_level_total_witness :
    (exG2.get_contact_level "A" "B" = some 0 ∧ exG2.get_weight "A" "B" = none) ∧
    (exG2E.get_contact_level "A" "B" = some 1 ∧ exG2E.get_weight "A" "B" = some 1) :=
  ⟨(C6_contact_level_total exG2 "A" "B" _ _ rfl rfl).1 rfl,
   (C6_contact_level_total exG2E "A" "B" _ _ rfl rfl).2 1 rfl⟩

/-- C9: a successful `setInfected(S)` marks exactly the vertices of `S`
infected and leaves everything else — other vertices, all neighbours maps,
and every cached degree — unchanged; it does not trigger a recompute. -/
theorem C9_set_infected_additive (g : Graph) (S : List String) (g' : Graph)
    (h : g.set_infected S = some g') :
    ∀ v, (lookupId v g'.people =
      (lookupId v g.people).map (fun p => if v ∈ S then { p with infected := true } else p)) ∧
    (∀ p', lookupId v g'.people = some p' → ∃ p, lookupId v g.people = some p ∧
      p'.neighbours = p.neighbours ∧ p'.degrees_apart = p.degrees_apart ∧
      p'.name = p.name ∧ p'.age = p.age ∧ p'.severity_level = p.severity_level ∧
      (v ∈ S → p'.infected = true) ∧ (v ∉ S → p' = p)) := by
  intro v
  have hv := set_infected_lookup S g g' h v
  refine ⟨hv, ?_⟩
  intro p' hp'
  rw [hv] at hp'
  cases hx : lookupId v g.people with
  | none => rw [hx] at hp'; simp at hp'
  | some p =>
      rw [hx] at hp'
      refine ⟨p, rfl, ?_⟩
      have hval := (Option.some_inj.mp hp').symm
      subst hval
      by_cases hvS : v ∈ S <;> simp [hvS]

/-- Witness for C9: infecting `A` in `{A, B}` marks `A` and leaves `B`
untouched. -/
theorem C9_set_infected_additive_witness :
    ∃ g', exG2.set_infected ["A"] = some g' ∧
      (∀ p', lookupId "A" g'.people = some p' → p'.infected = true) ∧
      lookupId "B" g'.people = lookupId "B" exG2.people := by
  refine ⟨_, rfl, ?_, ?_⟩
  · intro p' hp'
    obtain ⟨p, -, -, -, -, -, -, hinf, -⟩ :=
      ((C9_set_infected_additive exG2 ["A"] _ rfl "A").2 p' hp')
    exact hinf (by decide)
  · have := ((C9_set_infected_additive exG2 ["A"] _ rfl "B").1)
    rw [this]
    decide

/-! ### Built-graph invariants (C3) -/

theorem nbrWeight_add_vertex (g : Graph) (id n : String) (a : Int) (s : ℚ)
    (u v : String) (hfresh : lookupId id g.people = none) :
    nbrWeight (g.add_vertex id n a s) u v = nbrWeight g u v := by
  unfold nbrWeight
  rw [lookupId_add_vertex, hfresh]
  cases hu : lookupId u g.people with
  | some p => rfl
  | none =>
      by_cases hui : u = id
      · simp [hui, Person.init, lookupId]
      · simp [hui]

theorem lookupId_add_vertex_mono (g : Graph) (id n : String) (a : Int) (s : ℚ)
    (v : String) (h : (lookupId v g.people).isSome) :
    (lookupId v (g.add_vertex id n a s).people).isSome := by
  rw [lookupId_add_vertex]
  cases lookupId id g.people <;> cases hx : lookupId v g.people <;> simp_all

theorem add_edge_lookup_isSome {g : Graph} {id1 id2 : String} {w : ℚ} {g' : Graph}
    (h : g.add_edge id1 id2 w = some g') (v : String) :
    (lookupId v g'.people).isSome = (lookupId v g.people).isSome := by
  rw [add_edge_lookup h]
  cases lookupId v g.people <;> simp

theorem add_edge_preserves_fields {g : Graph} {id1 id2 : String} {w : ℚ} {g' : Graph}
    (h : g.add_edge id1 id2 w = some g') (v : String) (p' : Person)
    (hp' : lookupId v g'.people = some p') :
    ∃ p, lookupId v g.people = some p ∧ p'.identifier = p.identifier ∧
      p'.name = p.name ∧ p'.age = p.age ∧ p'.severity_level = p.severity_level ∧
      p'.infected = p.infected ∧ p'.degrees_apart = p.degrees_apart := by
  rw [add_edge_lookup h v] at hp'
  cases hx : lookupId v g.people with
  | none => rw [hx] at hp'; simp at hp'
  | some p =>
      rw [hx] at hp'
      refine ⟨p, rfl, ?_⟩
      have hval := (Option.some_inj.mp hp').symm
      subst hval
      by_cases hv1 : v = id1 <;> by_cases hv2 : v = id2 <;> simp [hv1, hv2, apply_ite]

theorem keys_mapEntry {α β : Type} (f : String × α → β) (l : List (String × α)) :
    (l.map (fun pr => (pr.1, f pr))).map (·.1) = l.map (·.1) := by
  rw [List.map_map]
  exact List.map_congr_left (fun pr _ => rfl)

theorem add_edge_keys {g : Graph} {id1 id2 : String} {w : ℚ} {g' : Graph}
    (h : g.add_edge id1 id2 w = some g') :
    g'.people.map (·.1) = g.people.map (·.1) := by
  unfold Graph.add_edge at h
  cases h1 : lookupId id1 g.people <;> rw [h1] at h
  case none => simp at h
  cases h2 : lookupId id2 g.people <;> rw [h2] at h
  case none => simp at h
  have hg' : g' = updateNb (updateNb g id1 id2 w) id2 id1 w := (Option.some_inj.mp h).symm
  subst hg'
  have k1 : ∀ (gg : Graph) (a b : String) (ww : ℚ),
      (updateNb gg a b ww).people.map (·.1) = gg.people.map (·.1) := by
    intro gg a b ww
    exact keys_mapEntry _ _
  rw [k1, k1]

theorem built_inv (g : Graph) (hb : Built g) : BuiltInv g := by
  induction hb with
  | empty =>
      refine ⟨?_, ?_, ?_, ?_⟩
      · intro u v x
        simp [nbrWeight, Graph.empty, lookupId]
      · intro u v hx
        simp [nbrWeight, Graph.empty, lookupId] at hx
      · intro v p hp
        simp [Graph.empty, lookupId] at hp
      · simp [Graph.empty]
  | add_vertex g id n a s hb ih =>
      obtain ⟨hsymm, hclosed, hinf, hnd⟩ := ih
      cases hfresh : lookupId id g.people with
      | some p =>
          rw [add_vertex_present_noop g id n a s (by simp [hfresh])]
          exact ⟨hsymm, hclosed, hinf, hnd⟩
      | none =>
          refine ⟨?_, ?_, ?_, ?_⟩
          · intro u v x
            rw [nbrWeight_add_vertex g id n a s u v hfresh,
              nbrWeight_add_vertex g id n a s v u hfresh]
            exact hsymm u v x
          · intro u v hx
            rw [nbrWeight_add_vertex g id n a s u v hfresh] at hx
            exact lookupId_add_vertex_mono g id n a s v (hclosed u v hx)
          · intro v p hp
            rw [lookupId_add_vertex, hfresh] at hp
            cases hv : lookupId v g.people with
            | some q => rw [hv] at hp; exact hinf v p (hv.trans hp)
            | none =>
                rw [hv] at hp
                by_cases hvi : v = id
                · rw [if_pos hvi] at hp
                  have := (Option.some_inj.mp hp).symm
                  subst this
                  rfl
                · rw [if_neg hvi] at hp; simp at hp
          · have hav : (g.add_vertex id n a s).people
                = g.people ++ [(id, Person.init id n a s)] := by
              unfold Graph.add_vertex
              rw [hfresh]
            rw [hav, List.map_append, List.nodup_append]
            refine ⟨hnd, List.nodup_singleton id, ?_⟩
            intro x hx hx'
            simp only [List.map_cons, List.map_nil, List.mem_singleton] at hx'
            subst hx'
            rw [mem_keys_iff_lookupId, hfresh] at hx
            cases hx
  | add_edge g g' id1 id2 w hb h ih =>
      obtain ⟨hsymm, hclosed, hinf, hnd⟩ := ih
      refine ⟨?_, ?_, ?_, ?_⟩
      · intro u v x
        rw [nbrWeight_add_edge h, nbrWeight_add_edge h]
        by_cases hc : (u = id1 ∧ v = id2) ∨ (u = id2 ∧ v = id1)
        · rw [if_pos hc, if_pos (by tauto)]
        · rw [if_neg hc, if_neg (by tauto)]
          exact hsymm u v x
      · intro u v hx
        rw [add_edge_lookup_isSome h]
        rw [nbrWeight_add_edge h] at hx
        by_cases hc : (u = id1 ∧ v = id2) ∨ (u = id2 ∧ v = id1)
        · rcases hc with ⟨-, hv⟩ | ⟨-, hv⟩
          · exact hv ▸ (add_edge_present h).2
          · exact hv ▸ (add_edge_present h).1
        · rw [if_neg hc] at hx
          exact hclosed u v hx
      · intro v p hp
        obtain ⟨q, hq, -, -, -, -, hqi, -⟩ := add_edge_preserves_fields h v p hp
        rw [hqi]
        exact hinf v q hq
      · rw [add_edge_keys h]
        exact hnd

theorem built_add_edge_getD (g : Graph) (id1 id2 : String) (w : ℚ) (hb : Built g)
    (h : (g.add_edge id1 id2 w).isSome) :
    Built ((g.add_edge id1 id2 w).getD Graph.empty) := by
  obtain ⟨g', hg'⟩ := Option.isSome_iff_exists.mp h
  have he : (g.add_edge id1 id2 w).getD Graph.empty = g' := by rw [hg']; rfl
  rw [he]
  exact Built.add_edge g g' id1 id2 w hb hg'

theorem exPath_built : Built exPath := by
  have h0 : Built (((Graph.empty.add_vertex "A" "Ann" 30 1).add_vertex
      "B" "Bob" 60 0).add_vertex "C" "Cam" 20 1) :=
    Built.add_vertex _ "C" "Cam" 20 1
      (Built.add_vertex _ "B" "Bob" 60 0
        (Built.add_vertex _ "A" "Ann" 30 1 Built.empty))
  exact built_add_edge_getD _ "B" "C" 1
    (built_add_edge_getD _ "A" "B" 1 h0 (by decide)) (by decide)

/-- C3: in every graph built by `addVertex` / `addEdge` calls the neighbour
relation is symmetric with the same stored weight on both sides, and a
successful `addEdge` overwrites the weight on both endpoints. -/
theorem C3_symmetric_adjacency (g : Graph) (hb : Built g) :
    (∀ u v x, nbrWeight g u v = some x ↔ nbrWeight g v u = some x) ∧
    (∀ id1 id2 w g', g.add_edge id1 id2 w = some g' →
      nbrWeight g' id1 id2 = some w ∧ nbrWeight g' id2 id1 = some w) := by
  refine ⟨(built_inv g hb).1, ?_⟩
  intro id1 id2 w g' h
  rw [nbrWeight_add_edge h, nbrWeight_add_edge h]
  constructor
  · rw [if_pos (Or.inl ⟨rfl, rfl⟩)]
  · rw [if_pos (Or.inr ⟨rfl, rfl⟩)]

/-- Witness for C3 on the path `A - B - C`: weights agree on both sides, and
re-adding `A - B` with weight `2` overwrites both directions. -/
theorem C3_symmetric_adjacency_witness :
    (nbrWeight exPath "A" "B" = some 1 ↔ nbrWeight exPath "B" "A" = some 1) ∧
    (∃ g', exPath.add_edge "A" "B" 2 = some g' ∧
      nbrWeight g' "A" "B" = some 2 ∧ nbrWeight g' "B" "A" = some 2) := by
  have hb := exPath_built
  refine ⟨(C3_symmetric_adjacency exPath hb).1 "A" "B" 1, ⟨_, rfl, ?_⟩⟩
  exact (C3_symmetric_adjacency exPath hb).2 "A" "B" 2 _ rfl

/-! ### Recompute is a function of graph + infection state (C7) -/

theorem recalc_reset_seed (g : Graph) :
    (g.recalculate_degrees).reset_degrees.seed_infected
      = g.reset_degrees.seed_infected := by
  unfold Graph.recalculate_degrees Graph.reset_degrees Graph.seed_infected
  simp only [List.map_map]
  apply congrArg
  apply List.map_congr_left
  intro pr _
  cases pr with
  | mk k p =>
      cases p with
      | mk pid pn pa ps pinf pnb pdeg =>
          by_cases hinf : pinf <;>
            simp [Person.reset_degree, Function.comp, hinf]

theorem adjOf_recalculate (g : Graph) : (g.recalculate_degrees).adjOf = g.adjOf := by
  funext id
  unfold Graph.adjOf
  rw [lookupId_recalculate, lookupId_seed_infected, lookupId_reset_degrees]
  cases hx : lookupId id g.people with
  | none => rfl
  | some p => simp [Person.reset_degree, apply_ite]

theorem length_recalculate (g : Graph) :
    (g.recalculate_degrees).people.length = g.people.length := by
  unfold Graph.recalculate_degrees Graph.reset_degrees Graph.seed_infected
  simp

theorem seedsOf_recalculate (g : Graph) :
    (g.recalculate_degrees).seedsOf = g.seedsOf := by
  unfold Graph.seedsOf
  rw [recalc_reset_seed]

theorem seedState_recalculate (g : Graph) :
    (g.recalculate_degrees).seedState = g.seedState := by
  funext id
  unfold Graph.seedState
  rw [recalc_reset_seed]

theorem finalState_recalculate (g : Graph) :
    (g.recalculate_degrees).finalState = g.finalState := by
  unfold Graph.finalState
  rw [seedsOf_recalculate, seedState_recalculate, adjOf_recalculate,
    length_recalculate]

/-- C7: `recomputeDegrees` is a function of the current graph and infection
state only, so running it twice in a row leaves the graph — in particular
every vertex's cached `degreesApart` value — exactly as after the first run. -/
theorem C7_recalculate_idempotent (g : Graph) :
    (g.recalculate_degrees).recalculate_degrees = g.recalculate_degrees ∧
    ∀ v, (lookupId v ((g.recalculate_degrees).recalculate_degrees).people).map
        Person.degrees_apart
      = (lookupId v g.recalculate_degrees.people).map Person.degrees_apart := by
  have hmain : (g.recalculate_degrees).recalculate_degrees = g.recalculate_degrees := by
    conv_lhs => rw [Graph.recalculate_degrees]
    conv_rhs => rw [Graph.recalculate_degrees]
    rw [recalc_reset_seed, finalState_recalculate]
  exact ⟨hmain, fun v => by rw [hmain]⟩

/-! ### Propagation computes pointwise minima (towards C1) -/

theorem ole_refl (a : Option Nat) : ole a a := fun y hy => ⟨y, hy, le_refl y⟩

theorem ole_trans {a b c : Option Nat} (h1 : ole a b) (h2 : ole b c) : ole a c := by
  intro y hy
  obtain ⟨x, hx, hxy⟩ := h2 y hy
  obtain ⟨z, hz, hzx⟩ := h1 x hx
  exact ⟨z, hz, le_trans hzx hxy⟩

theorem minSpec_id (st : DegMap) (E : String → Nat → Prop)
    (hE : ∀ u d, E u d → False) : MinSpec st st E :=
  fun u => ⟨ole_refl _, fun d hd => absurd hd (hE u d), Or.inl rfl⟩

theorem minSpec_congr {st res : DegMap} {E E' : String → Nat → Prop}
    (h : ∀ u d, E' u d ↔ E u d) (hm : MinSpec st res E) : MinSpec st res E' := by
  intro u
  obtain ⟨hlo, hev, hat⟩ := hm u
  refine ⟨hlo, fun d hd => hev d ((h u d).mp hd), ?_⟩
  rcases hat with he | ⟨d, hd, he⟩
  · exact Or.inl he
  · exact Or.inr ⟨d, (h u d).mpr hd, he⟩

theorem minSpec_trans {st1 st2 st3 : DegMap} {E1 E2 : String → Nat → Prop}
    (h12 : MinSpec st1 st2 E1) (h23 : MinSpec st2 st3 E2) :
    MinSpec st1 st3 (fun u d => E1 u d ∨ E2 u d) := by
  intro u
  obtain ⟨l12, e12, a12⟩ := h12 u
  obtain ⟨l23, e23, a23⟩ := h23 u
  refine ⟨ole_trans l23 l12, ?_, ?_⟩
  · rintro d (hd | hd)
    · exact ole_trans l23 (e12 d hd)
    · exact e23 d hd
  · rcases a23 with h3 | ⟨d, hd, he⟩
    · rcases a12 with h2 | ⟨d, hd, he⟩
      · exact Or.inl (h3.trans h2)
      · exact Or.inr ⟨d, Or.inl hd, h3.trans he⟩
    · exact Or.inr ⟨d, Or.inr hd, he⟩

theorem foldl_minSpec {α : Type} (f : DegMap → α → DegMap)
    (E : α → String → Nat → Prop) (l : List α)
    (hstep : ∀ st a, a ∈ l → MinSpec st (f st a) (E a)) (st : DegMap) :
    MinSpec st (l.foldl f st) (fun u d => ∃ a ∈ l, E a u d) := by
  induction l generalizing st with
  | nil =>
      refine minSpec_id st _ ?_
      rintro u d ⟨a, ha, -⟩
      exact absurd ha (List.not_mem_nil a)
  | cons a l ih =>
      have h1 : MinSpec st (f st a) (E a) := hstep st a (List.mem_cons_self a l)
      have h2 : MinSpec (f st a) (l.foldl f (f st a)) (fun u d => ∃ b ∈ l, E b u d) :=
        ih (fun st' b hb => hstep st' b (List.mem_cons_of_mem a hb)) (f st a)
      rw [List.foldl_cons]
      apply minSpec_congr ?_ (minSpec_trans h1 h2)
      intro u d
      constructor
      · rintro ⟨b, hb, hd⟩
        rcases List.mem_cons.mp hb with rfl | hb
        · exact Or.inl hd
        · exact Or.inr ⟨b, hb, hd⟩
      · rintro (hd | ⟨b, hb, hd⟩)
        · exact ⟨a, List.mem_cons_self a l, hd⟩
        · exact ⟨b, List.mem_cons_of_mem a hb, hd⟩

theorem updMin_spec (c : Nat) (o : Option Nat) :
    ole (updMin c o) o ∧ ole (updMin c o) (some c) ∧
      (updMin c o = o ∨ updMin c o = some c) := by
  cases o with
  | none =>
      refine ⟨fun y hy => Option.noConfusion hy, ?_, Or.inr rfl⟩
      intro y hy
      cases hy
      exact ⟨c, rfl, le_refl c⟩
  | some d =>
      by_cases h : c < d
      · refine ⟨?_, ?_, Or.inr (by simp [updMin, if_pos h])⟩
        · intro y hy
          cases hy
          exact ⟨c, by simp [updMin, if_pos h], le_of_lt h⟩
        · intro y hy
          cases hy
          exact ⟨c, by simp [updMin, if_pos h], le_refl c⟩
      · refine ⟨?_, ?_, Or.inl (by simp [updMin, if_neg h])⟩
        · intro y hy
          cases hy
          exact ⟨d, by simp [updMin, if_neg h], le_refl d⟩
        · intro y hy
          cases hy
          exact ⟨d, by simp [updMin, if_neg h], le_of_not_lt h⟩

theorem minSpec_update (st : DegMap) (v : String) (c : Nat) :
    MinSpec st
      (fun u => if u = v then updMin c (st v) else st u)
      (fun u d => u = v ∧ d = c) := by
  intro u
  by_cases hu : u = v
  · obtain ⟨h1, h2, h3⟩ := updMin_spec c (st v)
    have hres : (fun u' => if u' = v then updMin c (st v) else st u') u
        = updMin c (st v) := if_pos hu
    refine ⟨?_, ?_, ?_⟩
    · rw [hres, hu]
      exact h1
    · intro d hd
      rw [hres, hd.2]
      exact h2
    · rcases h3 with h | h
      · exact Or.inl (by rw [hres, h, hu])
      · exact Or.inr ⟨c, ⟨hu, rfl⟩, by rw [hres, h]⟩
  · have hres : (fun u' => if u' = v then updMin c (st v) else st u') u
        = st u := if_neg hu
    refine ⟨?_, fun d hd => absurd hd.1 hu, Or.inl hres⟩
    rw [hres]
    exact ole_refl _

theorem ev_iff (adj : String → List String) (v : String) (c : Nat)
    (visited : List String) (u : String) (d : Nat) :
    Ev adj v c visited u d ↔
      ((u = v ∧ d = c) ∨
        ∃ w ∈ adj v, w ∉ v :: visited ∧ Ev adj w (c + 1) (v :: visited) u d) := by
  constructor
  · intro h
    cases h with
    | here => exact Or.inl ⟨rfl, rfl⟩
    | step hw hnv hrec => exact Or.inr ⟨_, hw, hnv, hrec⟩
  · rintro (⟨rfl, rfl⟩ | ⟨w, hw, hnv, hrec⟩)
    · exact Ev.here _ _ _
    · exact Ev.step hw hnv hrec

theorem calcDeg_minSpec (adj : String → List String) (uni : Finset String)
    (hclosed : ∀ x y, y ∈ adj x → y ∈ uni) :
    ∀ (fuel : Nat) (v : String) (c : Nat) (visited : List String)
      (init_call : Bool) (st : DegMap), v ∈ uni → v ∉ visited →
      (uni \ visited.toFinset).card < fuel → (init_call = true ∨ c ≠ 0) →
      MinSpec st (calculate_degrees_apart adj fuel v c visited init_call st)
        (Ev adj v c visited) := by
  intro fuel
  induction fuel with
  | zero =>
      intro v c visited init_call st hv hvis hcard hinit
      exact absurd hcard (Nat.not_lt_zero _)
  | succ fuel ih =>
      intro v c visited init_call st hv hvis hcard hinit
      have hguard : ¬(init_call = false ∧ c = 0) := by
        rcases hinit with h | h
        · rintro ⟨hf, -⟩
          rw [h] at hf
          cases hf
        · rintro ⟨-, hc⟩
          exact h hc
      rw [calculate_degrees_apart, if_neg hguard]
      have hvmem : v ∈ uni \ visited.toFinset :=
        Finset.mem_sdiff.mpr ⟨hv, fun hc => hvis (List.mem_toFinset.mp hc)⟩
      have hcard1 : (uni \ (v :: visited).toFinset).card < fuel := by
        have hset : uni \ (v :: visited).toFinset = (uni \ visited.toFinset).erase v := by
          ext x
          simp only [List.toFinset_cons, Finset.mem_sdiff, Finset.mem_erase,
            Finset.mem_insert]
          tauto
        have hpos : 0 < (uni \ visited.toFinset).card :=
          Finset.card_pos.mpr ⟨v, hvmem⟩
        rw [hset, Finset.card_erase_of_mem hvmem]
        omega
      have hupd := minSpec_update st v c
      have hfold : MinSpec
          (fun u => if u = v then updMin c (st v) else st u)
          ((adj v).foldl
            (fun acc w =>
              if w ∈ v :: visited then acc
              else calculate_degrees_apart adj fuel w (c + 1) (v :: visited) false acc)
            (fun u => if u = v then updMin c (st v) else st u))
          (fun u d => ∃ w ∈ adj v,
            w ∉ v :: visited ∧ Ev adj w (c + 1) (v :: visited) u d) := by
        refine foldl_minSpec _
          (fun w u d => w ∉ v :: visited ∧ Ev adj w (c + 1) (v :: visited) u d)
          (adj v) ?_ _
        intro st' w hw
        by_cases hwv : w ∈ v :: visited
        · simp only [if_pos hwv]
          refine minSpec_id st' _ ?_
          rintro u d ⟨hnw, -⟩
          exact hnw hwv
        · simp only [if_neg hwv]
          refine minSpec_congr ?_
            (ih w (c + 1) (v :: visited) false st' (hclosed v w hw) hwv hcard1
              (Or.inr (Nat.succ_ne_zero c)))
          intro u d
          constructor
          · rintro ⟨-, hd⟩
            exact hd
          · intro hd
            exact ⟨hwv, hd⟩
      refine minSpec_congr ?_ (minSpec_trans hupd hfold)
      intro u d
      rw [ev_iff adj v c visited u d]

/-! ### Events are exactly simple paths; walks de-loop to simple paths -/

theorem ev_walk {adj : String → List String} {v : String} {c : Nat}
    {visited : List String} {u : String} {d : Nat}
    (h : Ev adj v c visited u d) : ∃ k, d = c + k ∧ Walk adj v u k := by
  induction h with
  | here v c visited => exact ⟨0, rfl, Walk.nil v⟩
  | step hw hnv hrec ih =>
      obtain ⟨k, hk, hwalk⟩ := ih
      exact ⟨k + 1, by omega, Walk.cons hw hwalk⟩

theorem walk_snoc {adj : String → List String} {a b c : String} {k : Nat}
    (h : Walk adj a b k) (hc : c ∈ adj b) : Walk adj a c (k + 1) := by
  induction h with
  | nil v => exact Walk.cons hc (Walk.nil c)
  | cons hadj hw ih => exact Walk.cons hadj (ih hc)

theorem walk_flip {adj : String → List String}
    (hsym : ∀ x y, y ∈ adj x → x ∈ adj y) {a b : String} {k : Nat}
    (h : Walk adj a b k) : Walk adj b a k := by
  induction h with
  | nil v => exact Walk.nil v
  | cons hadj hw ih => exact walk_snoc ih (hsym _ _ hadj)

theorem walk_zero {adj : String → List String} {a b : String}
    (h : Walk adj a b 0) : a = b := by
  cases h
  rfl

theorem getLast?_cons_ne {α : Type} (x : α) (xs : List α) (h : xs ≠ []) :
    (x :: xs).getLast? = xs.getLast? := by
  cases xs with
  | nil => exact absurd rfl h
  | cons y ys => simp [List.getLast?]

theorem walk_to_chain {adj : String → List String} {a u : String} {k : Nat}
    (h : Walk adj a u k) :
    ∃ l : List String, l.head? = some a ∧ l.getLast? = some u ∧
      l.length = k + 1 ∧ List.Chain' (fun x y => y ∈ adj x) l := by
  induction h with
  | nil v => exact ⟨[v], rfl, rfl, rfl, List.chain'_singleton v⟩
  | cons hadj hw ih =>
      rename_i a' b' u' k'
      obtain ⟨l, hh, hl, hlen, hch⟩ := ih
      have hne : l ≠ [] := by
        intro he
        rw [he] at hh
        cases hh
      refine ⟨a' :: l, rfl, ?_, by simp [hlen], ?_⟩
      · rw [getLast?_cons_ne a' l hne]
        exact hl
      · rw [List.chain'_cons']
        refine ⟨?_, hch⟩
        intro h0 hh0
        rw [hh] at hh0
        cases hh0
        exact hadj

theorem chain_nodup_ev (adj : String → List String) :
    ∀ (l : List String) (a u : String) (c : Nat) (visited : List String),
      List.Chain' (fun x y => y ∈ adj x) l → l.Nodup →
      l.head? = some a → l.getLast? = some u →
      (∀ x ∈ l, x ∉ visited) →
      Ev adj a c visited u (c + (l.length - 1)) := by
  intro l
  induction l with
  | nil =>
      intro a u c visited _ _ hh _ _
      cases hh
  | cons x l ih =>
      intro a u c visited hch hnd hh hl havoid
      have hax : x = a := Option.some.inj hh
      subst hax
      cases l with
      | nil =>
          have hxu : x = u := Option.some.inj hl
          subst hxu
          exact Ev.here x c visited
      | cons y l' =>
          have hxy : y ∈ adj x := (List.chain'_cons.mp hch).1
          have hch' := (List.chain'_cons.mp hch).2
          have hxnot : x ∉ y :: l' := (List.nodup_cons.mp hnd).1
          have hnd' : (y :: l').Nodup := (List.nodup_cons.mp hnd).2
          have havoid' : ∀ z ∈ y :: l', z ∉ x :: visited := by
            intro z hz
            simp only [List.mem_cons, not_or]
            exact ⟨fun he => hxnot (he ▸ hz),
              havoid z (List.mem_cons_of_mem x hz)⟩
          have hlast : (y :: l').getLast? = some u := by
            rw [← hl]
            exact (getLast?_cons_ne x (y :: l') (by simp)).symm
          have hev : Ev adj y (c + 1) (x :: visited) u
              ((c + 1) + ((y :: l').length - 1)) :=
            ih y u (c + 1) (x :: visited) hch' hnd' rfl hlast havoid'
          have harith : (c + 1) + ((y :: l').length - 1)
              = c + ((x :: y :: l').length - 1) := by
            simp only [List.length_cons]
            omega
          rw [harith] at hev
          refine Ev.step hxy ?_ hev
          exact havoid' y (List.mem_cons_self y l')

theorem getLast?_append_right {α : Type} (l1 l2 : List α) (h : l2 ≠ []) :
    (l1 ++ l2).getLast? = l2.getLast? := by
  induction l1 with
  | nil => rfl
  | cons x l1 ih =>
      have hne : l1 ++ l2 ≠ [] := by
        intro he
        exact h (List.append_eq_nil.mp he).2
      rw [List.cons_append, getLast?_cons_ne x (l1 ++ l2) hne, ih]

theorem chain_deloop (adj : String → List String) :
    ∀ (l : List String), List.Chain' (fun x y => y ∈ adj x) l →
      ∃ l', List.Chain' (fun x y => y ∈ adj x) l' ∧ l'.Nodup ∧
        l'.head? = l.head? ∧ l'.getLast? = l.getLast? ∧ l'.length ≤ l.length := by
  intro l
  induction l with
  | nil => exact fun _ => ⟨[], List.chain'_nil, List.nodup_nil, rfl, rfl, le_refl 0⟩
  | cons a l ih =>
      intro hch
      cases l with
      | nil =>
          exact ⟨[a], List.chain'_singleton a, List.nodup_singleton a, rfl, rfl,
            le_refl 1⟩
      | cons b l2 =>
          have hab : b ∈ adj a := (List.chain'_cons.mp hch).1
          have hch2 : List.Chain' (fun x y => y ∈ adj x) (b :: l2) :=
            (List.chain'_cons.mp hch).2
          obtain ⟨l', hch', hnd', hh', hl', hlen'⟩ := ih hch2
          have hl'ne : l' ≠ [] := by
            intro he
            rw [he] at hh'
            cases hh'
          by_cases ha : a ∈ l'
          · obtain ⟨s, t, hst⟩ := List.append_of_mem ha
            subst hst
            have hchat : List.Chain' (fun x y => y ∈ adj x) (a :: t) :=
              (List.chain'_append.mp hch').2.1
            have hndat : (a :: t).Nodup := hnd'.of_append_right
            refine ⟨a :: t, hchat, hndat, rfl, ?_, ?_⟩
            · rw [getLast?_cons_ne a (b :: l2) (by simp), ← hl']
              rw [getLast?_append_right s (a :: t) (by simp)]
            · have hla := List.length_append s (a :: t)
              simp only [List.length_cons] at hla hlen' ⊢
              omega
          · refine ⟨a :: l', ?_, List.nodup_cons.mpr ⟨ha, hnd'⟩, rfl, ?_, ?_⟩
            · rw [List.chain'_cons']
              refine ⟨?_, hch'⟩
              intro h0 hh0
              rw [hh'] at hh0
              cases hh0
              exact hab
            · rw [getLast?_cons_ne a l' hl'ne, getLast?_cons_ne a (b :: l2) (by simp)]
              exact hl'
            · simp only [List.length_cons] at hlen' ⊢
              omega

theorem walk_ev {adj : String → List String} {s u : String} {k : Nat}
    (h : Walk adj s u k) : ∃ d, d ≤ k ∧ Ev adj s 0 [] u d := by
  obtain ⟨l, hh, hl, hlen, hch⟩ := walk_to_chain h
  obtain ⟨l', hch', hnd', hh', hl', hlen'⟩ := chain_deloop adj l hch
  have hev := chain_nodup_ev adj l' s u 0 [] hch' hnd' (hh'.trans hh)
    (hl'.trans hl) (fun x _ => List.not_mem_nil x)
  refine ⟨0 + (l'.length - 1), ?_, hev⟩
  omega

/-! ### Assembly of the minimum-distance theorem (C1) -/

theorem mem_adjOf (g : Graph) (x y : String) :
    y ∈ g.adjOf x ↔ (nbrWeight g x y).isSome := by
  unfold Graph.adjOf nbrWeight
  cases lookupId x g.people with
  | none => simp
  | some p =>
      show y ∈ p.neighbours.map (·.1) ↔ (lookupId y p.neighbours).isSome
      exact mem_keys_iff_lookupId y p.neighbours

theorem lookup_of_mem_nodup {α : Type} :
    ∀ (l : List (String × α)), (l.map (·.1)).Nodup →
      ∀ (s : String) (p : α), (s, p) ∈ l → lookupId s l = some p := by
  intro l
  induction l with
  | nil => intro _ s p hmem; cases hmem
  | cons q rest ih =>
      intro hnd s p hmem
      rw [List.map_cons] at hnd
      rcases List.mem_cons.mp hmem with he | hmem'
      · subst he
        simp [lookupId]
      · have hq : ¬q.1 = s := by
          intro he
          have hin : s ∈ rest.map (·.1) := List.mem_map.mpr ⟨(s, p), hmem', rfl⟩
          have hnotin := (List.nodup_cons.mp hnd).1
          rw [he] at hnotin
          exact hnotin hin
        show (if q.1 = s then some q.2 else lookupId s rest) = some p
        rw [if_neg hq]
        exact ih (List.nodup_cons.mp hnd).2 s p hmem'

theorem mem_of_lookupId {α : Type} {l : List (String × α)} {s : String} {p : α}
    (h : lookupId s l = some p) : (s, p) ∈ l := by
  rw [lookupId_eq_findEntry] at h
  cases hf : findEntry s l with
  | none => rw [hf] at h; cases h
  | some pr =>
      rw [hf] at h
      have hkey := findEntry_key hf
      have hmem := findEntry_mem hf
      have hval : pr.2 = p := Option.some_inj.mp h
      rcases pr with ⟨k, v⟩
      have hks : k = s := hkey
      have hvp : v = p := hval
      subst hks
      subst hvp
      exact hmem

theorem set_infected_keys :
    ∀ (S : List String) (g g' : Graph), g.set_infected S = some g' →
      g'.people.map (·.1) = g.people.map (·.1) := by
  intro S
  induction S with
  | nil =>
      intro g g' h
      simp [Graph.set_infected] at h
      subst h
      rfl
  | cons id rest ih =>
      intro g g' h
      unfold Graph.set_infected at h
      cases h1 : lookupId id g.people <;> rw [h1] at h
      case none => simp at h
      case some p =>
          have hrec := ih _ _ h
          rw [hrec]
          exact keys_mapEntry _ _

theorem seed_keys (g : Graph) :
    (g.reset_degrees.seed_infected).people.map (·.1) = g.people.map (·.1) := by
  have h1 : g.reset_degrees.people.map (·.1) = g.people.map (·.1) :=
    keys_mapEntry _ _
  have h2 : (g.reset_degrees.seed_infected).people.map (·.1)
      = g.reset_degrees.people.map (·.1) := keys_mapEntry _ _
  rw [h2, h1]

theorem seed_lookup (g : Graph) (v : String) :
    lookupId v (g.reset_degrees.seed_infected).people
      = (lookupId v g.people).map (fun p =>
          if p.infected then { p with degrees_apart := some 0 }
          else { p with degrees_apart := none }) := by
  rw [lookupId_seed_infected, lookupId_reset_degrees]
  cases lookupId v g.people with
  | none => rfl
  | some p => by_cases h : p.infected <;> simp [Person.reset_degree, h]

theorem seedState_eq (g : Graph) (v : String) :
    g.seedState v =
      match lookupId v g.people with
      | none => none
      | some p => if p.infected then some 0 else none := by
  unfold Graph.seedState
  rw [seed_lookup]
  cases lookupId v g.people with
  | none => rfl
  | some p => by_cases h : p.infected <;> simp [h]

theorem seedsOf_spec (g : Graph) (hnd : (g.people.map (·.1)).Nodup) (s : String) :
    s ∈ g.seedsOf ↔ ∃ p, lookupId s g.people = some p ∧ p.infected = true := by
  unfold Graph.seedsOf
  have hnd2 : ((g.reset_degrees.seed_infected).people.map (·.1)).Nodup := by
    rw [seed_keys]
    exact hnd
  constructor
  · intro hs
    obtain ⟨pr, hpr, hkey⟩ := List.mem_map.mp hs
    obtain ⟨hmem, hinf⟩ := List.mem_filter.mp hpr
    have hprs : pr = (s, pr.2) := by rw [← hkey]
    have hlook : lookupId s (g.reset_degrees.seed_infected).people = some pr.2 :=
      lookup_of_mem_nodup _ hnd2 s pr.2 (hprs ▸ hmem)
    rw [seed_lookup] at hlook
    cases hx : lookupId s g.people with
    | none => rw [hx] at hlook; cases hlook
    | some p =>
        rw [hx] at hlook
        refine ⟨p, rfl, ?_⟩
        have hpr2 : pr.2 = if p.infected then { p with degrees_apart := some 0 }
            else { p with degrees_apart := none } := by
          have h0 := Option.some_inj.mp hlook
          simpa using h0.symm
        rw [hpr2] at hinf
        by_cases hpi : p.infected
        · exact hpi
        · rw [if_neg hpi] at hinf
          exact absurd hinf (by simp [hpi])
  · rintro ⟨p, hp, hinf⟩
    apply List.mem_map.mpr
    refine ⟨(s, { p with degrees_apart := some 0 }), ?_, rfl⟩
    apply List.mem_filter.mpr
    constructor
    · apply mem_of_lookupId
      rw [seed_lookup, hp]
      simp [hinf]
    · simp [hinf]

theorem adjOf_set_infected {g : Graph} {S : List String} {g' : Graph}
    (h : g.set_infected S = some g') : g'.adjOf = g.adjOf := by
  funext v
  unfold Graph.adjOf
  rw [set_infected_lookup S g g' h v]
  cases lookupId v g.people with
  | none => rfl
  | some p => by_cases hv : v ∈ S <;> simp [hv]

/-- C1: for a graph built by `addVertex`/`addEdge` (so with no previously
infected vertices), after `setInfected(S)` and `recomputeDegrees()` every
vertex reachable from `S` caches exactly the minimum number of edges on any
path to a vertex of `S` (vertices of `S` cache `0`), and every vertex
unreachable from `S` has an unset cache so `getDegree` fails with
`NotComputed`. -/
theorem C1_min_distance (g : Graph) (hb : Built g) (S : List String) (gS : Graph)
    (hset : g.set_infected S = some gS) (u : String) (p : Person)
    (hp : lookupId u gS.recalculate_degrees.people = some p) :
    ((∃ s ∈ S, ∃ k, Walk g.adjOf u s k) →
      ∃ d, p.get_degree = some d ∧ (∃ s ∈ S, Walk g.adjOf u s d) ∧
        (∀ s k, s ∈ S → Walk g.adjOf u s k → d ≤ k)) ∧
    ((¬∃ s ∈ S, ∃ k, Walk g.adjOf u s k) → p.get_degree = none) ∧
    (u ∈ S → p.get_degree = some 0) := by
  obtain ⟨hsymm, hclosed, hninf, hnodup⟩ := built_inv g hb
  have hadjS : gS.adjOf = g.adjOf := adjOf_set_infected hset
  have hsym' : ∀ x y, y ∈ g.adjOf x → x ∈ g.adjOf y := by
    intro x y hxy
    rw [mem_adjOf] at hxy ⊢
    obtain ⟨wv, hwv⟩ := Option.isSome_iff_exists.mp hxy
    rw [(hsymm x y wv).mp hwv]
    rfl
  have hSpres : ∀ s ∈ S, (lookupId s g.people).isSome :=
    set_infected_present S g gS hset
  have hgSlook := set_infected_lookup S g gS hset
  have hgSkeys : gS.people.map (·.1) = g.people.map (·.1) :=
    set_infected_keys S g gS hset
  have hgSnodup : (gS.people.map (·.1)).Nodup := by rw [hgSkeys]; exact hnodup
  have hseeds : ∀ s, s ∈ gS.seedsOf ↔ s ∈ S := by
    intro s
    rw [seedsOf_spec gS hgSnodup s]
    constructor
    · rintro ⟨q, hq, hqi⟩
      rw [hgSlook] at hq
      cases hx : lookupId s g.people with
      | none => rw [hx] at hq; cases hq
      | some p0 =>
          rw [hx] at hq
          have hqval : q = if s ∈ S then { p0 with infected := true } else p0 := by
            have h0 := Option.some_inj.mp hq
            simpa using h0.symm
          by_cases hsS : s ∈ S
          · exact hsS
          · rw [hqval, if_neg hsS] at hqi
            rw [hninf s p0 hx] at hqi
            cases hqi
    · intro hsS
      obtain ⟨p0, hp0⟩ := Option.isSome_iff_exists.mp (hSpres s hsS)
      refine ⟨{ p0 with infected := true }, ?_, rfl⟩
      rw [hgSlook, hp0]
      simp [hsS]
  have hcloseduni : ∀ x y, y ∈ gS.adjOf x → y ∈ (g.people.map (·.1)).toFinset := by
    intro x y hy
    rw [hadjS, mem_adjOf] at hy
    rw [List.mem_toFinset, mem_keys_iff_lookupId]
    exact hclosed x y hy
  have hM : MinSpec gS.seedState gS.finalState
      (fun u' d => ∃ s ∈ gS.seedsOf, Ev gS.adjOf s 0 [] u' d) := by
    unfold Graph.finalState
    refine foldl_minSpec _ (fun s u' d => Ev gS.adjOf s 0 [] u' d) gS.seedsOf ?_
      gS.seedState
    intro st s hs
    apply calcDeg_minSpec gS.adjOf ((g.people.map (·.1)).toFinset) hcloseduni
      (gS.people.length + 1) s 0 [] true st
    · rw [List.mem_toFinset, mem_keys_iff_lookupId]
      exact hSpres s ((hseeds s).mp hs)
    · exact List.not_mem_nil s
    · have h1 : (g.people.map (·.1)).toFinset.card ≤ g.people.length := by
        calc (g.people.map (·.1)).toFinset.card
            ≤ (g.people.map (·.1)).length := List.toFinset_card_le _
          _ = g.people.length := List.length_map _ _
      have h2 : gS.people.length = g.people.length := by
        have hc := congrArg List.length hgSkeys
        simpa using hc
      simp only [List.toFinset_nil, Finset.sdiff_empty]
      omega
    · exact Or.inl rfl
  have hlookF := lookupId_recalculate gS u
  rw [hlookF] at hp
  cases hxs : lookupId u (gS.reset_degrees.seed_infected).people with
  | none => rw [hxs] at hp; cases hp
  | some q =>
      rw [hxs] at hp
      have hpq : p = { q with degrees_apart := gS.finalState u } :=
        (Option.some_inj.mp hp).symm
      have hdeg : p.degrees_apart = gS.finalState u := by rw [hpq]
      have hgd : ∀ o, p.degrees_apart = o → p.get_degree = o := by
        intro o ho
        cases o with
        | none => simp [Person.get_degree, ho]
        | some d => simp [Person.get_degree, ho]
      have hupres : (lookupId u g.people).isSome := by
        rw [seed_lookup] at hxs
        cases hx2 : lookupId u gS.people with
        | none => rw [hx2] at hxs; cases hxs
        | some p1 =>
            rw [hgSlook] at hx2
            cases hx3 : lookupId u g.people with
            | none => rw [hx3] at hx2; cases hx2
            | some p2 => simp
      have hseedu : gS.seedState u = if u ∈ S then some 0 else none := by
        rw [seedState_eq]
        obtain ⟨p0, hp0⟩ := Option.isSome_iff_exists.mp hupres
        rw [hgSlook, hp0]
        by_cases hu : u ∈ S
        · simp [hu]
        · simp [hu, hninf u p0 hp0]
      obtain ⟨hlow, hev, hat⟩ := hM u
      have hev_to_walk : ∀ s d, s ∈ gS.seedsOf → Ev gS.adjOf s 0 [] u d →
          s ∈ S ∧ Walk g.adjOf u s d := by
        intro s d hs he
        rw [hadjS] at he
        obtain ⟨k, hk, hwalk⟩ := ev_walk he
        have hdk : d = k := by omega
        subst hdk
        exact ⟨(hseeds s).mp hs, walk_flip hsym' hwalk⟩
      have hwalk_to_ev : ∀ s k, s ∈ S → Walk g.adjOf u s k →
          ∃ d, d ≤ k ∧ ∃ s' ∈ gS.seedsOf, Ev gS.adjOf s' 0 [] u d := by
        intro s k hsS hw
        obtain ⟨d, hdk, he⟩ := walk_ev (walk_flip hsym' hw)
        refine ⟨d, hdk, s, (hseeds s).mpr hsS, ?_⟩
        rw [hadjS]
        exact he
      refine ⟨?_, ?_, ?_⟩
      · rintro ⟨s0, hs0, k0, hw0⟩
        obtain ⟨d0, hd0k, hE0⟩ := hwalk_to_ev s0 k0 hs0 hw0
        obtain ⟨x, hx, hxle⟩ := (hev d0 hE0) d0 rfl
        refine ⟨x, hgd (some x) (hdeg.trans hx), ?_, ?_⟩
        · rcases hat with hst | ⟨d, hdE, hfs⟩
          · rw [hst, hseedu] at hx
            by_cases hu : u ∈ S
            · rw [if_pos hu] at hx
              have hx0 : x = 0 := (Option.some_inj.mp hx).symm
              subst hx0
              exact ⟨u, hu, Walk.nil u⟩
            · rw [if_neg hu] at hx
              cases hx
          · have hxd : d = x := by
              rw [hfs] at hx
              exact Option.some_inj.mp hx
            obtain ⟨s', hs', he'⟩ := hdE
            obtain ⟨hsS', hw'⟩ := hev_to_walk s' d hs' he'
            subst hxd
            exact ⟨s', hsS', hw'⟩
        · intro s k hsS hw
          obtain ⟨d, hdk, hE⟩ := hwalk_to_ev s k hsS hw
          obtain ⟨x', hx', hxle'⟩ := (hev d hE) d rfl
          have hxx : x = x' := by
            rw [hx] at hx'
            exact Option.some_inj.mp hx'
          omega
      · intro hnr
        apply hgd
        rw [hdeg]
        rcases hat with hst | ⟨d, hdE, hfs⟩
        · rw [hst, hseedu]
          by_cases hu : u ∈ S
          · exact absurd ⟨u, hu, 0, Walk.nil u⟩ hnr
          · rw [if_neg hu]
        · obtain ⟨s', hs', he'⟩ := hdE
          obtain ⟨hsS', hw'⟩ := hev_to_walk s' d hs' he'
          exact absurd ⟨s', hsS', d, hw'⟩ hnr
      · intro huS
        have h0 : ∃ s' ∈ gS.seedsOf, Ev gS.adjOf s' 0 [] u 0 :=
          ⟨u, (hseeds u).mpr huS, Ev.here u 0 []⟩
        obtain ⟨x, hx, hxle⟩ := (hev 0 h0) 0 rfl
        have hx0 : x = 0 := Nat.le_zero.mp hxle
        subst hx0
        exact hgd (some 0) (hdeg.trans hx)

/-- Witness for C1 on the path `A - B - C` with `S = {A}`: the theorem applies
at the concrete graph, and its conclusion holds at vertex `C`. -/
theorem C1_min_distance_witness :
    ∃ p, lookupId "C"
        (((exPath.set_infected ["A"]).getD Graph.empty).recalculate_degrees).people
          = some p ∧
      ((∃ s ∈ ["A"], ∃ k, Walk exPath.adjOf "C" s k) →
        ∃ d, p.get_degree = some d ∧ (∃ s ∈ ["A"], Walk exPath.adjOf "C" s d) ∧
          (∀ s k, s ∈ ["A"] → Walk exPath.adjOf "C" s k → d ≤ k)) ∧
      ((¬∃ s ∈ ["A"], ∃ k, Walk exPath.adjOf "C" s k) → p.get_degree = none) ∧
      ("C" ∈ ["A"] → p.get_degree = some 0) := by
  have hset : exPath.set_infected ["A"]
      = some ((exPath.set_infected ["A"]).getD Graph.empty) := by rfl
  refine ⟨_, rfl, ?_⟩
  exact C1_min_distance exPath exPath_built ["A"] _ hset "C" _ rfl
